import Mathlib

/-!
Verification of the smart-link-decorator core against its specification.

The development shallowly embeds the TypeScript sources:

* `src/lib/utils/parse.ts`          — `parseWikiLink`
* `src/lib/cm/SettingsFacet.ts`     — the rule-set merge (`combine`)
* `src/lib/cm/buildDecorations.ts`  — fragment predicates, `onMatchContinue`,
  `matchesInternalLink`, `decorate`, `findWikiLinks`, `buildLinkDecorations`
* `src/lib/cm/CMLinkDecoratorPlugin.ts` — the rebuild guard (`pluginUpdate`)
* the alias-replacement view plugin — `extractCompletedWikilink`,
  `findEnclosingWikilink`, `extractAlias`, `resolveEmoji`, `processAlias`,
  `handleLinkCompletion`, `handleCaretExit`

Modelling conventions:

* JavaScript strings are modelled as `List Char` (lists of Unicode scalar
  values); document offsets are character indices.  None of the verified
  scenarios places an astral-plane character before an offset that is
  computed, so the character-index model agrees with JavaScript's UTF-16
  indices everywhere it is used.
* `String.prototype.indexOf` / `lastIndexOf` with a `fromIndex`, `slice`,
  `startsWith` and `endsWith` are given as executable functions on
  `List Char` with JavaScript's clamping behaviour.
* JavaScript `Map.prototype.set` and object spread both overwrite an existing
  key in place (keeping the key's original position) and append a new key at
  the end; `mapSet` / `objSet` model exactly that on association lists.
* Fallible operations return `Option`; a scheduled document mutation is the
  `some` result of the processing function, `none` means no mutation is
  dispatched.
* The TypeScript field `prefix` of `PrefixMapping` is rendered as `pfx` and
  local variables named `alias` are rendered `aliasText` (both words are
  reserved tokens here); every other name follows the source.
-/

namespace SLD

/-- JavaScript `pat` occurs in `s` at index `i` (character indices). -/
def isPrefixAt (pat s : List Char) (i : Nat) : Bool :=
  pat.isPrefixOf (s.drop i)

/-- JavaScript `s.indexOf(pat, start)` for a non-empty `pat`: the least index
`i ≥ start` at which `pat` occurs, `none` when there is no occurrence. -/
def indexOfFrom (s pat : List Char) (start : Nat) : Option Nat :=
  (List.range (s.length + 1)).find? (fun i => decide (start ≤ i) && isPrefixAt pat s i)

/-- JavaScript `s.lastIndexOf(pat, fromIdx)`: the greatest index `i ≤ fromIdx`
at which `pat` occurs, `none` when there is no occurrence. -/
def lastIndexOfLe (s pat : List Char) (fromIdx : Nat) : Option Nat :=
  ((List.range (s.length + 1)).filter
    (fun i => decide (i ≤ fromIdx) && isPrefixAt pat s i)).getLast?

/-- JavaScript `s.slice(a, b)` for `0 ≤ a`, `0 ≤ b` (clamped to the length). -/
def sliceL (s : List Char) (a b : Nat) : List Char :=
  (s.take b).drop a

/-- One prefix rule, `src/lib/types/PrefixMapping.ts` (`pfx` renders the
source field `prefix`; `backgroundAlpha`, a TypeScript `number`, is modelled
as a rational — no arithmetic is ever performed on it). -/
structure PrefixMapping where
  pfx : List Char
  emoji : List Char
  linkType : String
  color : String
  background : String
  backgroundAlpha : Rat
  underline : Bool
  deriving DecidableEq

/-! ## parseWikiLink (src/lib/utils/parse.ts)

The source matches the anchored regular expression
`^\[\[([^|\]]*)\|([^\]]*)\]\]$` and returns the two capture groups, each
defaulting to the empty string when there is no match.  Because the first
character class excludes both `|` and `]` and the second excludes `]`, the
greedy match is deterministic: group 1 is the longest run after `[[` free of
`|` and `]`, which must be followed by a literal `|`; group 2 is the longest
run free of `]`; and the remainder of the string must be exactly `]]`.  The
definition below is that deterministic reading. -/

/-- Extraction of `(filename, alias)` from `[[filename|alias]]`; both parts
are `[]` whenever the anchored pattern does not match. -/
def parseWikiLink (linkString : List Char) : List Char × List Char :=
  match linkString with
  | '[' :: '[' :: rest =>
    let fname := rest.takeWhile (fun c => !(c == '|' || c == ']'))
    let afterFname := rest.dropWhile (fun c => !(c == '|' || c == ']'))
    (match afterFname with
     | '|' :: afterPipe =>
       let aliasText := afterPipe.takeWhile (fun c => !(c == ']'))
       let afterAlias := afterPipe.dropWhile (fun c => !(c == ']'))
       if afterAlias = [']', ']'] then (fname, aliasText) else ([], [])
     | _ => ([], []))
  | _ => ([], [])

/-! ## Rule-set merge (src/lib/cm/SettingsFacet.ts)

The facet's `combine` inserts every contributed mapping into a JavaScript
`Map` keyed by the rule's prefix and returns `Array.from(map.values())`.
`Map.set` overwrites an existing key in place (the key keeps the position of
its first insertion) and appends a new key at the end; iteration follows that
insertion order. -/

/-- JavaScript `Map.set` on an association list of rules keyed by `pfx`. -/
def mapSet (byPrefix : List PrefixMapping) (mapping : PrefixMapping) : List PrefixMapping :=
  match byPrefix with
  | [] => [mapping]
  | entry :: rest =>
    if entry.pfx = mapping.pfx then mapping :: rest
    else entry :: mapSet rest mapping

/-- The facet's `combine`: both source loops, in contribution order. -/
def combine (values : List (List PrefixMapping)) : List PrefixMapping :=
  values.foldl (fun byPrefix mappings => mappings.foldl mapSet byPrefix) []

/-! ## Decorations (src/lib/cm/buildDecorations.ts) -/

/-- JavaScript object update `{...l, k: v}` on an association list: an
existing key keeps its position and gets the new value, a new key is
appended.  Object spread `{...a, ...b}` folds this over `b`'s entries. -/
def objSet (l : List (String × String)) (k v : String) : List (String × String) :=
  match l with
  | [] => [(k, v)]
  | (k', v') :: rest => if k' = k then (k, v) :: rest else (k', v') :: objSet rest k v

/-- Lookup in an attribute map (first entry with the key). -/
def attrLookup (attrs : List (String × String)) (k : String) : Option String :=
  (attrs.find? (fun p => p.1 = k)).map (fun p => p.2)

/-- The `MarkDecorationSpec` template passed to `decorate`: only its
`attributes` member is ever read (`spec.attributes || {}`; `none` models an
absent member, which JavaScript's `||` replaces by `{}`). -/
structure MarkSpec where
  attributes : Option (List (String × String))
  deriving DecidableEq

/-- One mark decoration added to the `RangeSetBuilder`: the range and the
attribute map of the `Decoration.mark` spec built for it. -/
structure Annotation where
  aFrom : Nat
  aTo : Nat
  attributes : List (String × String)
  deriving DecidableEq

/-- The match condition of `decorate`'s loop:
`alias.startsWith(setting.prefix) || alias.startsWith(setting.emoji)`. -/
def matchesAlias (aliasText : List Char) (setting : PrefixMapping) : Bool :=
  setting.pfx.isPrefixOf aliasText || setting.emoji.isPrefixOf aliasText

/-- The attribute map of the decoration `decorate` builds:
`{...spec.attributes || {}, "data-sld-type": setting.linkType}`. -/
def decorationAttrs (spec : MarkSpec) (setting : PrefixMapping) : List (String × String) :=
  objSet (spec.attributes.getD []) "data-sld-type" setting.linkType

/-- The `decorate` function: scan the settings in order; on the first rule
whose prefix or emoji starts the alias, add one mark decoration over
`[startFrom, endTo)` and return; otherwise leave the builder unchanged.
The builder is modelled as the list of decorations added so far. -/
def decorate (builder : List Annotation) (settings : List PrefixMapping)
    (spec : MarkSpec) (aliasText : List Char) (startFrom endTo : Nat) : List Annotation :=
  match settings with
  | [] => builder
  | setting :: rest =>
    if matchesAlias aliasText setting then
      builder ++ [{ aFrom := startFrom, aTo := endTo,
                    attributes := decorationAttrs spec setting }]
    else decorate builder rest spec aliasText startFrom endTo

/-! ## Syntax-tree model and the tree matcher -/

/-- One syntax-tree node's data: its compound type name and its document
range. -/
structure NodeData where
  name : String
  nodeFrom : Nat
  nodeTo : Nat
  deriving DecidableEq

/-- A syntax tree: node data plus the ordered list of children. -/
inductive Tree where
  | node (data : NodeData) (children : List Tree)

/-- Data of a tree's root node. -/
def Tree.data : Tree → NodeData
  | .node d _ => d

/-- Children of a tree's root node. -/
def Tree.children : Tree → List Tree
  | .node _ c => c

/-- A `TreeCursor` restricted to the operations the matcher uses: the current
node and the list of its following siblings. -/
structure Cursor where
  cur : Tree
  sibs : List Tree

/-- Source `getFragments`: the current node's type name split at `_`. -/
def getFragments (cursor : Cursor) : List String :=
  cursor.cur.data.name.splitOn "_"

def FLINK : String := "formatting-link"

def FLINKSTART : String := "formatting-link-start"

def FLINKEND : String := "formatting-link-end"

def ILINK : String := "hmd-internal-link"

def LINKHASALIAS : String := "link-has-alias"

def LINKALIASPIPE : String := "link-alias-pipe"

def LINKALIAS : String := "link-alias"

/-- Fragment test for the link-start marker. -/
def isFLinkStart (fragments : List String) : Bool :=
  fragments.contains FLINK && fragments.contains FLINKSTART

/-- Fragment test for the link-end marker. -/
def isFLinkEnd (fragments : List String) : Bool :=
  fragments.contains FLINK && fragments.contains FLINKEND

/-- Fragment test for the internal-link-with-alias role. -/
def isInternalLinkWithAlias (fragments : List String) : Bool :=
  fragments.contains ILINK && fragments.contains LINKHASALIAS

/-- Fragment test for the alias-pipe role. -/
def isInternalLinksPipe (fragments : List String) : Bool :=
  fragments.contains ILINK && fragments.contains LINKALIASPIPE

/-- Fragment test for the alias role. -/
def isInternalLinksAlias (fragments : List String) : Bool :=
  fragments.contains ILINK && fragments.contains LINKALIAS

/-- `TreeCursor.nextSibling` as a pure step: `some` of the moved cursor, or
`none` when there is no next sibling (the source call returns `false` and
the matcher fails at that point). -/
def nextSibling (cursor : Cursor) : Option Cursor :=
  match cursor.sibs with
  | [] => none
  | t :: ts => some ⟨t, ts⟩

/-- Source `onMatchContinue` (its `match` parameter is rendered `cond`, a
reserved word): run `next` when the current node's fragments satisfy the
predicate, otherwise report no match. -/
def onMatchContinue (cursor : Cursor) (cond : List String → Bool)
    (next : Cursor → Option Cursor) : Option Cursor :=
  if cond (getFragments cursor) then next cursor else none

/-- Source `matchesInternalLink`: the five-step sequential match.  The probe
cursor is a value, so the input cursor is never mutated; each step advances
to the next sibling and fails (`none`) when none exists or the role predicate
rejects, and the final step returns the cursor at the end-marker node. -/
def matchesInternalLink (cursor : Cursor) : Option Cursor :=
  onMatchContinue cursor (fun fragments => isFLinkStart fragments) (fun cursor =>
    match nextSibling cursor with
    | none => none
    | some cursor =>
      onMatchContinue cursor (fun fragments => isInternalLinkWithAlias fragments) (fun cursor =>
        match nextSibling cursor with
        | none => none
        | some cursor =>
          onMatchContinue cursor (fun fragments => isInternalLinksPipe fragments) (fun cursor =>
            match nextSibling cursor with
            | none => none
            | some cursor =>
              onMatchContinue cursor (fun fragments => isInternalLinksAlias fragments) (fun cursor =>
                match nextSibling cursor with
                | none => none
                | some cursor =>
                  onMatchContinue cursor (fun fragments => isFLinkEnd fragments) (fun cursor =>
                    some cursor)))))

/-- One wiki-link reported by `findWikiLinks` to its callback. -/
structure LinkMatch where
  mFrom : Nat
  mTo : Nat
  fname : List Char
  aliasText : List Char
  deriving DecidableEq

/-- Source `findWikiLinks`: depth-first pre-order traversal.  At every node
the matcher is attempted against the node and its following siblings; on
success the document is sliced over `[node.from, endNode.to)` and parsed.
After the attempt the traversal descends into the children, then continues
with the following siblings (`do … while (cursor.nextSibling())`). -/
def findWikiLinksForest (doc : List Char) : List Tree → List LinkMatch
  | [] => []
  | Tree.node data children :: rest =>
    (match matchesInternalLink ⟨Tree.node data children, rest⟩ with
     | some matchCursor =>
       let startFrom := data.nodeFrom
       let endTo := matchCursor.cur.data.nodeTo
       let parsed := parseWikiLink (sliceL doc startFrom endTo)
       [{ mFrom := startFrom, mTo := endTo, fname := parsed.1, aliasText := parsed.2 }]
     | none => []) ++
    findWikiLinksForest doc children ++ findWikiLinksForest doc rest

/-- Source `buildLinkDecorations`: drive the walker over the whole tree and
decorate every reported link with the empty template `{}`. -/
def buildLinkDecorations (doc : List Char) (tree : List Tree)
    (settings : List PrefixMapping) : List Annotation :=
  (findWikiLinksForest doc tree).foldl
    (fun builder m => decorate builder settings { attributes := none } m.aliasText m.mFrom m.mTo)
    []

/-! ## The decorator view plugin (src/lib/cm/CMLinkDecoratorPlugin.ts) -/

/-- The slice of an editor state the decorator plugin reads: the document,
its syntax tree, and the resolved rule set together with an identity token
(`settingsRef`) standing for the JavaScript object reference that the source
compares with `!==`. -/
structure EditorState where
  doc : List Char
  tree : List Tree
  settingsRef : Nat
  settings : List PrefixMapping

/-- The slice of a `ViewUpdate` the decorator plugin reads. -/
structure ViewUpdate where
  docChanged : Bool
  viewportChanged : Bool
  startState : EditorState
  state : EditorState

/-- The plugin's `update` method, returning the plugin's `decorations` field
after the update: rebuilt when the document changed, the viewport changed or
the facet value's identity changed, kept as-is otherwise. -/
def pluginUpdate (decorations : List Annotation) (update : ViewUpdate) : List Annotation :=
  if update.docChanged || update.viewportChanged
      || (update.startState.settingsRef != update.state.settingsRef) then
    buildLinkDecorations update.state.doc update.state.tree update.state.settings
  else decorations

/-! ## The alias-replacement view plugin -/

/-- A wiki-link range found in the document: `[lFrom, lTo)` and its raw
text. -/
structure WikiLink where
  lFrom : Nat
  lTo : Nat
  text : List Char
  deriving DecidableEq

/-- The alias information `extractAlias` returns (`aliasText` renders the
source field `alias`, a reserved word; `iFrom` its field `from`). -/
structure AliasInfo where
  aliasText : List Char
  iFrom : Nat
  prefixLength : Nat
  deriving DecidableEq

/-- The document mutation passed to `view.dispatch` (its `changes` member):
replace `[cFrom, cTo)` by `insert`.  A `some` result of the processing
functions below is a scheduled (deferred) dispatch, `none` means no mutation
is dispatched. -/
structure ChangeSpec where
  cFrom : Nat
  cTo : Nat
  insert : List Char
  deriving DecidableEq

/-- Application of a dispatched change to the document. -/
def applyChange (doc : List Char) (change : ChangeSpec) : List Char :=
  doc.take change.cFrom ++ change.insert ++ doc.drop change.cTo

/-- A collapsed-or-range selection: CodeMirror's `sel.empty` is
`selFrom = selTo`, and `sel.from` is the caret position. -/
structure Selection where
  selFrom : Nat
  selTo : Nat
  deriving DecidableEq

/-- Source `extractAlias`: find the pipe, slice the alias (excluding the
closing `]]`), reject an empty alias, and find the first mapping whose
prefix starts the alias.  The mappings parameter stands for
`update.state.facet(SLD_SettingsFacet)`. -/
def extractAlias (mappings : List PrefixMapping) (linkText : List Char)
    (linkFrom : Nat) : Option AliasInfo :=
  match indexOfFrom linkText ['|'] 0 with
  | none => none
  | some pipeIndex =>
    let aliasStart := pipeIndex + 1
    let aliasText := (linkText.take (linkText.length - 2)).drop aliasStart
    if aliasText = [] then none
    else
      match mappings.find? (fun m => m.pfx.isPrefixOf aliasText) with
      | none => none
      | some mapping =>
        some { aliasText := aliasText, iFrom := linkFrom + aliasStart,
               prefixLength := mapping.pfx.length }

/-- Source `resolveEmoji`: the emoji of the first mapping whose prefix starts
the alias (`mapping?.emoji ?? null`). -/
def resolveEmoji (mappings : List PrefixMapping) (aliasText : List Char) : Option (List Char) :=
  (mappings.find? (fun m => m.pfx.isPrefixOf aliasText)).map (fun m => m.emoji)

/-- Source `processAlias`: extract the alias, resolve the replacement, abort
on a falsy replacement (`!replacement` is true for the empty string) or when
the alias already equals the replacement, otherwise schedule the replacement
of the alias's leading `prefixLength` characters. -/
def processAlias (mappings : List PrefixMapping) (link : WikiLink) : Option ChangeSpec :=
  match extractAlias mappings link.text link.lFrom with
  | none => none
  | some aliasInfo =>
    match resolveEmoji mappings aliasInfo.aliasText with
    | none => none
    | some replacement =>
      if replacement = [] then none
      else if aliasInfo.aliasText = replacement then none
      else some { cFrom := aliasInfo.iFrom,
                  cTo := aliasInfo.iFrom + aliasInfo.prefixLength,
                  insert := replacement }

/-- Source `extractCompletedWikilink`: the most recent `[[` before the
cursor, whose slice up to the cursor must end in `]]` and contain no further
`[[` from offset 2 on. -/
def extractCompletedWikilink (doc : List Char) (cursorPos : Nat) : Option WikiLink :=
  match lastIndexOfLe doc ['[', '['] (cursorPos - 1) with
  | none => none
  | some openIdx =>
    let text := sliceL doc openIdx cursorPos
    if !([']', ']'].isSuffixOf text) then none
    else if (indexOfFrom text ['[', '['] 2).isSome then none
    else some { lFrom := openIdx, lTo := cursorPos, text := text }

/-- Source `findEnclosingWikilink`: nearest `[[` at or before `pos`, first
`]]` after it, and `pos` must lie within `[open, close + 2]` (both bounds
inclusive). -/
def findEnclosingWikilink (doc : List Char) (pos : Nat) : Option WikiLink :=
  match lastIndexOfLe doc ['[', '['] pos with
  | none => none
  | some openIdx =>
    match indexOfFrom doc [']', ']'] openIdx with
    | none => none
    | some close =>
      let toPos := close + 2
      if pos < openIdx ∨ toPos < pos then none
      else some { lFrom := openIdx, lTo := toPos, text := sliceL doc openIdx toPos }

/-- Source `handleLinkCompletion`: require a collapsed caret whose two
preceding characters are `]]` (`Math.max(0, cursorPos - 2)` is the truncated
subtraction), extract the completed link and process its alias. -/
def handleLinkCompletion (mappings : List PrefixMapping) (doc : List Char)
    (sel : Selection) : Option ChangeSpec :=
  if sel.selFrom ≠ sel.selTo then none
  else
    let cursorPos := sel.selFrom
    let tail := sliceL doc (cursorPos - 2) cursorPos
    if tail ≠ [']', ']'] then none
    else
      match extractCompletedWikilink doc cursorPos with
      | none => none
      | some link => processAlias mappings link

/-- Source `handleCaretExit`: require two collapsed carets that differ, a
wiki-link enclosing the previous caret, and the new caret outside that
link's (inclusive) bounds; then process the alias of the link just left. -/
def handleCaretExit (mappings : List PrefixMapping) (doc : List Char)
    (prevSel nextSel : Selection) : Option ChangeSpec :=
  if prevSel.selFrom ≠ prevSel.selTo ∨ nextSel.selFrom ≠ nextSel.selTo then none
  else
    let prevPos := prevSel.selFrom
    let nextPos := nextSel.selFrom
    if prevPos = nextPos then none
    else
      match findEnclosingWikilink doc prevPos with
      | none => none
      | some link =>
        if link.lFrom ≤ nextPos ∧ nextPos ≤ link.lTo then none
        else processAlias mappings link

/-- The slice of a transaction the replacement plugin reads:
`tr.isUserEvent("input")`. -/
structure Transaction where
  isUserInputEvent : Bool

/-- The slice of a `ViewUpdate` the replacement plugin reads (`doc` is the
updated state's document, used by both handlers; `prevSel` is the start
state's main selection). -/
structure ReplUpdate where
  rDocChanged : Bool
  rSelectionSet : Bool
  transactions : List Transaction
  doc : List Char
  prevSel : Selection
  sel : Selection

/-- The replacement plugin's `update` method, returning the list of
mutations it schedules during one update: on a document change,
`handleLinkCompletion` runs once per user-input transaction (non-user
transactions are skipped); on a selection change, `handleCaretExit` runs. -/
def replacementPluginUpdate (mappings : List PrefixMapping) (update : ReplUpdate) :
    List ChangeSpec :=
  (if update.rDocChanged then
    (update.transactions.filter (fun tr => tr.isUserInputEvent)).foldl
      (fun scheduled _ =>
        scheduled ++ (handleLinkCompletion mappings update.doc update.sel).toList) []
  else []) ++
  (if update.rSelectionSet then
    (handleCaretExit mappings update.doc update.prevSel update.sel).toList
  else [])

/-! ## Specification-side definitions

The merge specification of §3 of the spec is stated in its own vocabulary
(first-insertion key order, last write wins); the definitions below render
those words so the merge implementation can be compared against them. -/

/-- Keys (prefix values) of a rule list, in order. -/
def keysOf (rules : List PrefixMapping) : List (List Char) :=
  rules.map (fun m => m.pfx)

/-- First rule with the given prefix key. -/
def lookupByPfx (rules : List PrefixMapping) (k : List Char) : Option PrefixMapping :=
  rules.find? (fun m => m.pfx = k)

/-- Modelled from the spec's words, merge order: the keys in order of first
insertion, given the keys already seen. -/
def specFirstKeys (seen : List (List Char)) : List (List Char) → List (List Char)
  | [] => []
  | k :: ks => if k ∈ seen then specFirstKeys seen ks else k :: specFirstKeys (seen ++ [k]) ks

/-- Modelled from the spec's words, last write wins: the last contributed
rule carrying the given key. -/
def specLastWins (rules : List PrefixMapping) (k : List Char) : Option PrefixMapping :=
  (rules.filter (fun m => m.pfx = k)).getLast?

/-! ## Concrete scenario data -/

/-- The single rule of the spec's link-completion scenario. -/
def c1Rule : PrefixMapping :=
  { pfx := "@".toList, emoji := "👤".toList, linkType := "person",
    color := "", background := "", backgroundAlpha := 0, underline := false }

/-- The document of the spec's link-completion scenario. -/
def c1Doc : List Char := "Note [[Target|@Foo]] end".toList

/-- A rule whose emoji already equals the alias it matches (for the
idempotence witness). -/
def c6Rule : PrefixMapping :=
  { pfx := "@".toList, emoji := "@Foo".toList, linkType := "person",
    color := "", background := "", backgroundAlpha := 0, underline := false }

/-- A completed link whose alias is `@Foo` (for the idempotence witness). -/
def c6Link : WikiLink := { lFrom := 0, lTo := 10, text := "[[A|@Foo]]".toList }

/-- A matching rule for the attribute-overlay witness. -/
def c8Rule : PrefixMapping :=
  { pfx := "@".toList, emoji := "👤".toList, linkType := "person",
    color := "", background := "", backgroundAlpha := 0, underline := false }

/-- A template that already carries a `data-sld-type` entry (for the
attribute-overlay witness). -/
def c8Spec : MarkSpec :=
  { attributes := some [("data-sld-type", "old"), ("class", "sld")] }

/-- A fixed editor state (for the no-rebuild witness). -/
def c9State : EditorState :=
  { doc := "x".toList, tree := [], settingsRef := 7, settings := [] }

/-- The document of the caret-exit boundary witness. -/
def c10Doc : List Char := "[[a|b]]".toList

/-- Contributor A of the spec's merge-collision scenario. -/
def mergeRuleA : PrefixMapping :=
  { pfx := ">".toList, emoji := "".toList, linkType := "location",
    color := "", background := "", backgroundAlpha := 0, underline := false }

/-- Contributor B of the spec's merge-collision scenario. -/
def mergeRuleB : PrefixMapping :=
  { pfx := ">".toList, emoji := "".toList, linkType := "navigation",
    color := "", background := "", backgroundAlpha := 0, underline := false }

/-! ## Helper lemmas -/

/-- Unrolling of `decorate`'s loop: it adds the decoration of the first
matching rule, or nothing. -/
theorem decorate_eq_find (builder : List Annotation) (settings : List PrefixMapping)
    (spec : MarkSpec) (aliasText : List Char) (startFrom endTo : Nat) :
    decorate builder settings spec aliasText startFrom endTo =
      match settings.find? (matchesAlias aliasText) with
      | some setting => builder ++ [{ aFrom := startFrom, aTo := endTo,
                                      attributes := decorationAttrs spec setting }]
      | none => builder := by
  induction settings with
  | nil => rfl
  | cons setting rest ih =>
    by_cases hm : matchesAlias aliasText setting = true
    · simp [decorate, hm]
    · simp [decorate, hm, ih]

/-- An object update stores the updated key's value. -/
theorem attrLookup_objSet_self (l : List (String × String)) (k v : String) :
    attrLookup (objSet l k v) k = some v := by
  induction l with
  | nil => simp [objSet, attrLookup]
  | cons p rest ih =>
    obtain ⟨k', v'⟩ := p
    by_cases hk : k' = k
    · subst hk; simp [objSet, attrLookup]
    · simp [objSet, hk, attrLookup, List.find?_cons] at ih ⊢
      exact ih

/-- An object update leaves every other key's value unchanged. -/
theorem attrLookup_objSet_other (l : List (String × String)) (k v k2 : String) (h : k2 ≠ k) :
    attrLookup (objSet l k v) k2 = attrLookup l k2 := by
  induction l with
  | nil => simp [objSet, attrLookup, Ne.symm h]
  | cons p rest ih =>
    obtain ⟨k', v'⟩ := p
    by_cases hk : k' = k
    · subst hk
      simp [objSet, attrLookup, List.find?_cons, Ne.symm h]
    · simp [objSet, hk, attrLookup, List.find?_cons] at ih ⊢
      by_cases h2 : k' = k2 <;> simp [h2, ih]

/-- Keys of a cons, unfolded. -/
theorem keysOf_cons (e : PrefixMapping) (l : List PrefixMapping) :
    keysOf (e :: l) = e.pfx :: keysOf l := rfl

/-- Lookup on a cons, unfolded. -/
theorem lookupByPfx_cons (e : PrefixMapping) (l : List PrefixMapping) (k : List Char) :
    lookupByPfx (e :: l) k = if e.pfx = k then some e else lookupByPfx l k := by
  by_cases h : e.pfx = k <;> simp [lookupByPfx, List.find?_cons, h]

/-- A `Map.set` hitting the head entry replaces it in place. -/
theorem mapSet_cons_hit (e : PrefixMapping) (l : List PrefixMapping) (m : PrefixMapping)
    (h : e.pfx = m.pfx) : mapSet (e :: l) m = m :: l := by
  simp [mapSet, h]

/-- A `Map.set` missing the head entry keeps it and recurses. -/
theorem mapSet_cons_miss (e : PrefixMapping) (l : List PrefixMapping) (m : PrefixMapping)
    (h : ¬ e.pfx = m.pfx) : mapSet (e :: l) m = e :: mapSet l m := by
  simp [mapSet, h]

/-- A `Map.set` keeps the key list when the key exists and appends it
otherwise. -/
theorem keysOf_mapSet (l : List PrefixMapping) (m : PrefixMapping) :
    keysOf (mapSet l m) = if m.pfx ∈ keysOf l then keysOf l else keysOf l ++ [m.pfx] := by
  induction l with
  | nil => simp [mapSet, keysOf]
  | cons e rest ih =>
    by_cases he : e.pfx = m.pfx
    · have hmem : m.pfx ∈ keysOf (e :: rest) := by
        rw [keysOf_cons, he]; exact List.mem_cons_self _ _
      rw [mapSet_cons_hit e rest m he, if_pos hmem, keysOf_cons, keysOf_cons, he]
    · have hiff : (m.pfx ∈ keysOf (e :: rest)) ↔ m.pfx ∈ keysOf rest := by
        rw [keysOf_cons, List.mem_cons]
        exact or_iff_right (Ne.symm he)
      rw [mapSet_cons_miss e rest m he, keysOf_cons, keysOf_cons, ih]
      by_cases hm : m.pfx ∈ keysOf rest
      · rw [if_pos hm, if_pos (List.mem_cons.mpr (Or.inr hm))]
      · rw [if_neg hm,
          if_neg (fun hh => (List.mem_cons.mp hh).elim (fun h1 => he h1.symm) hm),
          List.cons_append]

/-- Lookup after a `Map.set`: the written value at its key, unchanged
elsewhere. -/
theorem lookupByPfx_mapSet (l : List PrefixMapping) (m : PrefixMapping) (k : List Char) :
    lookupByPfx (mapSet l m) k = if m.pfx = k then some m else lookupByPfx l k := by
  induction l with
  | nil =>
    show lookupByPfx [m] k = _
    rw [lookupByPfx_cons]
  | cons e rest ih =>
    by_cases he : e.pfx = m.pfx
    · rw [mapSet_cons_hit e rest m he, lookupByPfx_cons, lookupByPfx_cons, he]
      by_cases hk : m.pfx = k <;> simp [hk]
    · rw [mapSet_cons_miss e rest m he, lookupByPfx_cons, lookupByPfx_cons, ih]
      by_cases hek : e.pfx = k
      · have : ¬ m.pfx = k := fun hh => he (hek.trans hh.symm)
        simp [hek, this]
      · simp [hek]

/-- The facet's nested loops equal one fold over the flattened
contributions. -/
theorem combine_eq_foldl_flatten (values : List (List PrefixMapping)) :
    combine values = values.flatten.foldl mapSet [] :=
  (List.foldl_flatten mapSet [] values).symm

/-- Keys of the merge fold: the accumulator's keys followed by the new keys
in first-insertion order. -/
theorem keysOf_foldl_mapSet (rs : List PrefixMapping) :
    ∀ acc : List PrefixMapping,
      keysOf (rs.foldl mapSet acc) = keysOf acc ++ specFirstKeys (keysOf acc) (keysOf rs) := by
  induction rs with
  | nil => intro acc; simp [specFirstKeys, keysOf]
  | cons r rest ih =>
    intro acc
    rw [List.foldl_cons, ih (mapSet acc r), keysOf_mapSet, keysOf_cons]
    by_cases hr : r.pfx ∈ keysOf acc
    · rw [if_pos hr, specFirstKeys, if_pos hr]
    · rw [if_neg hr, specFirstKeys, if_neg hr, List.append_assoc, List.singleton_append]

/-- Lookup over the merge fold: the last written entry wins, falling back to
the accumulator. -/
theorem lookupByPfx_foldl_mapSet (rs : List PrefixMapping) (k : List Char) :
    ∀ acc : List PrefixMapping,
      lookupByPfx (rs.foldl mapSet acc) k =
        match specLastWins rs k with
        | some m => some m
        | none => lookupByPfx acc k := by
  induction rs using List.reverseRecOn with
  | nil => intro acc; simp [specLastWins, lookupByPfx]
  | append_singleton rs r ih =>
    intro acc
    rw [List.foldl_append, List.foldl_cons, List.foldl_nil, lookupByPfx_mapSet]
    by_cases hk : r.pfx = k
    · rw [if_pos hk]
      have : specLastWins (rs ++ [r]) k = some r := by
        simp [specLastWins, List.filter_append, hk, List.getLast?_concat]
      rw [this]
    · rw [if_neg hk, ih acc]
      have : specLastWins (rs ++ [r]) k = specLastWins rs k := by
        simp [specLastWins, List.filter_append, hk]
      rw [this]

/-- A `Map.set` preserves distinctness of the keys. -/
theorem keysOf_mapSet_nodup (l : List PrefixMapping) (m : PrefixMapping)
    (h : (keysOf l).Nodup) : (keysOf (mapSet l m)).Nodup := by
  rw [keysOf_mapSet]
  by_cases hm : m.pfx ∈ keysOf l
  · rwa [if_pos hm]
  · rw [if_neg hm]
    simp [List.nodup_append, h, hm]

/-- The merge fold preserves distinctness of the keys. -/
theorem foldl_mapSet_nodup (rs : List PrefixMapping) :
    ∀ acc : List PrefixMapping, (keysOf acc).Nodup → (keysOf (rs.foldl mapSet acc)).Nodup := by
  induction rs with
  | nil => intro acc h; exact h
  | cons r rest ih =>
    intro acc h
    exact ih (mapSet acc r) (keysOf_mapSet_nodup acc r h)

/-- An enclosing wiki-link found for a position contains that position
within its inclusive bounds. -/
theorem findEnclosingWikilink_bounds (doc : List Char) (pos : Nat) (link : WikiLink)
    (h : findEnclosingWikilink doc pos = some link) :
    link.lFrom ≤ pos ∧ pos ≤ link.lTo := by
  unfold findEnclosingWikilink at h
  rcases h1 : lastIndexOfLe doc ['[', '['] pos with _ | openIdx <;> rw [h1] at h
  · exact absurd h (by simp)
  dsimp only at h
  rcases h2 : indexOfFrom doc [']', ']'] openIdx with _ | close <;> rw [h2] at h
  · exact absurd h (by simp)
  dsimp only at h
  split at h
  · exact absurd h (by simp)
  · rename_i hguard
    push_neg at hguard
    obtain ⟨hlo, hhi⟩ := hguard
    cases h
    exact ⟨hlo, hhi⟩

/-! ## Claim theorems -/

/-- Claim C1: on the document `"Note [[Target|@Foo]] end"` with the single
rule `{prefix := "@", emoji := "👤", linkType := "person"}` and a collapsed
caret right after the just-typed `]]` (offset 20), the link-completion
detector fires: it extracts the completed link `[[Target|@Foo]]` at
`[5, 20)`, extracts the alias `@Foo` starting at offset 14 with prefix
length 1, and schedules the mutation replacing exactly the one-character
range `[14, 15)` (the `@`) by `👤`, whose application yields
`"Note [[Target|👤Foo]] end"`.  The first conjunct drives the whole plugin
`update` on a user-input document change (with the caret moved from 19 to
20 by the typed `]`): exactly that one mutation is scheduled. -/
theorem linkCompletion_scenario :
    replacementPluginUpdate [c1Rule]
      { rDocChanged := true, rSelectionSet := true,
        transactions := [{ isUserInputEvent := true }],
        doc := c1Doc, prevSel := ⟨19, 19⟩, sel := ⟨20, 20⟩ } =
      [{ cFrom := 14, cTo := 15, insert := "👤".toList }] ∧
    handleLinkCompletion [c1Rule] c1Doc ⟨20, 20⟩ =
      some { cFrom := 14, cTo := 15, insert := "👤".toList } ∧
    extractCompletedWikilink c1Doc 20 =
      some { lFrom := 5, lTo := 20, text := "[[Target|@Foo]]".toList } ∧
    extractAlias [c1Rule] ("[[Target|@Foo]]".toList) 5 =
      some { aliasText := "@Foo".toList, iFrom := 14, prefixLength := 1 } ∧
    applyChange c1Doc { cFrom := 14, cTo := 15, insert := "👤".toList } =
      "Note [[Target|👤Foo]] end".toList := by
  decide

/-- Claim C2: for every rule set, alias and span, `decorate` adds exactly
the one annotation of the first rule (in rule-set order) whose prefix or
emoji starts the alias, evaluating no later rules, and adds nothing when no
rule matches; moreover a rule whose prefix or emoji is the empty string
matches every alias. -/
theorem decorate_first_match (builder : List Annotation) (settings : List PrefixMapping)
    (spec : MarkSpec) (aliasText : List Char) (startFrom endTo : Nat) :
    (decorate builder settings spec aliasText startFrom endTo =
      match settings.find? (matchesAlias aliasText) with
      | some setting => builder ++ [{ aFrom := startFrom, aTo := endTo,
                                      attributes := decorationAttrs spec setting }]
      | none => builder) ∧
    (∀ setting : PrefixMapping, setting.pfx = [] ∨ setting.emoji = [] →
      matchesAlias aliasText setting = true) := by
  refine ⟨decorate_eq_find builder settings spec aliasText startFrom endTo, ?_⟩
  intro setting h
  cases h with
  | inl h => simp [matchesAlias, h, List.isPrefixOf]
  | inr h => simp [matchesAlias, h, List.isPrefixOf]

/-- Claim C3: the rule-set merge inserts and overwrites by prefix key with
last write winning — the output's keys stand in first-insertion order and
each key's value is the last contribution carrying it — and merging
contributor A (`>`, location) then contributor B (`>`, navigation) yields
exactly `[B]`. -/
theorem combine_last_write_wins_first_insertion_order :
    (∀ values : List (List PrefixMapping),
      keysOf (combine values) = specFirstKeys [] (keysOf values.flatten)) ∧
    (∀ (values : List (List PrefixMapping)) (k : List Char),
      lookupByPfx (combine values) k = specLastWins values.flatten k) ∧
    combine [[mergeRuleA], [mergeRuleB]] = [mergeRuleB] := by
  refine ⟨?_, ?_, by decide⟩
  · intro values
    rw [combine_eq_foldl_flatten, keysOf_foldl_mapSet]
    rfl
  · intro values k
    rw [combine_eq_foldl_flatten, lookupByPfx_foldl_mapSet]
    cases h : specLastWins values.flatten k <;> simp [lookupByPfx]

/-- Claim C4: `matchesInternalLink` succeeds exactly on a five-node sibling
sequence whose roles, in order, satisfy the link-start, has-alias,
alias-pipe, alias and link-end fragment tests, and then returns the cursor
at the end-marker node; a failing role, wrong order or missing sibling
yields `none`.  The input cursor is a value, so it is never mutated. -/
theorem matchesInternalLink_characterization (cursor result : Cursor) :
    matchesInternalLink cursor = some result ↔
      ∃ (second third fourth fifth : Tree) (rest : List Tree),
        cursor.sibs = second :: third :: fourth :: fifth :: rest ∧
        isFLinkStart (getFragments cursor) = true ∧
        isInternalLinkWithAlias (getFragments ⟨second, third :: fourth :: fifth :: rest⟩) = true ∧
        isInternalLinksPipe (getFragments ⟨third, fourth :: fifth :: rest⟩) = true ∧
        isInternalLinksAlias (getFragments ⟨fourth, fifth :: rest⟩) = true ∧
        isFLinkEnd (getFragments ⟨fifth, rest⟩) = true ∧
        result = ⟨fifth, rest⟩ := by
  obtain ⟨cur, sibs⟩ := cursor
  rcases sibs with _ | ⟨t2, _ | ⟨t3, _ | ⟨t4, _ | ⟨t5, rest⟩⟩⟩⟩
  · simp [matchesInternalLink, onMatchContinue, nextSibling, getFragments, ite_self]
  · simp [matchesInternalLink, onMatchContinue, nextSibling, getFragments, ite_self]
  · simp [matchesInternalLink, onMatchContinue, nextSibling, getFragments, ite_self]
  · simp [matchesInternalLink, onMatchContinue, nextSibling, getFragments, ite_self]
  · simp only [matchesInternalLink, onMatchContinue, nextSibling, getFragments]
    by_cases h1 : isFLinkStart (cur.data.name.splitOn "_") = true
    · by_cases h2 : isInternalLinkWithAlias (t2.data.name.splitOn "_") = true
      · by_cases h3 : isInternalLinksPipe (t3.data.name.splitOn "_") = true
        · by_cases h4 : isInternalLinksAlias (t4.data.name.splitOn "_") = true
          · by_cases h5 : isFLinkEnd (t5.data.name.splitOn "_") = true
            · rw [if_pos h1, if_pos h2, if_pos h3, if_pos h4, if_pos h5]
              constructor
              · intro h
                exact ⟨t2, t3, t4, t5, rest, rfl, h1, h2, h3, h4, h5,
                  (Option.some.inj h).symm⟩
              · rintro ⟨s2, s3, s4, s5, r, heq, _, _, _, _, _, hr⟩
                obtain ⟨rfl, rfl, rfl, rfl, rfl⟩ :
                    t2 = s2 ∧ t3 = s3 ∧ t4 = s4 ∧ t5 = s5 ∧ rest = r := by
                  injection heq with e1 h; injection h with e2 h
                  injection h with e3 h; injection h with e4 h
                  exact ⟨e1, e2, e3, e4, h⟩
                rw [hr]
            · rw [if_pos h1, if_pos h2, if_pos h3, if_pos h4, if_neg h5]
              simp only [ne_eq, reduceCtorEq, false_iff, not_exists, not_and]
              intros; simp_all
          · rw [if_pos h1, if_pos h2, if_pos h3, if_neg h4]
            simp only [ne_eq, reduceCtorEq, false_iff, not_exists, not_and]
            intros; simp_all
        · rw [if_pos h1, if_pos h2, if_neg h3]
          simp only [ne_eq, reduceCtorEq, false_iff, not_exists, not_and]
          intros; simp_all
      · rw [if_pos h1, if_neg h2]
        simp only [ne_eq, reduceCtorEq, false_iff, not_exists, not_and]
        intros; simp_all
    · rw [if_neg h1]
      simp only [ne_eq, reduceCtorEq, false_iff, not_exists, not_and]
      intros; simp_all

/-- Claim C5 counterexample: the input `"[[[[|x]]"` carries a nested opening
bracket pair inside the span, yet `parseWikiLink` does not return the pair
of empty strings — it returns `("[[", "x")`, refuting the claim's
nested-brackets clause. -/
theorem parseWikiLink_nested_brackets_counterexample :
    parseWikiLink ("[[[[|x]]".toList) = ("[[".toList, "x".toList) ∧
    parseWikiLink ("[[[[|x]]".toList) ≠ ([], []) := by
  decide

/-- Claim C5 as amended: `parseWikiLink` maps `"[[A|B]]"` to `("A", "B")`;
every input without a pipe character, and every input not delimited by
leading `[[` and trailing `]]`, yields `("", "")`; nested opening brackets
inside the span are not rejected — `"[[[[|x]]"` parses to `("[[", "x")`. -/
theorem parseWikiLink_spec :
    parseWikiLink ("[[A|B]]".toList) = ("A".toList, "B".toList) ∧
    (∀ s : List Char, '|' ∉ s → parseWikiLink s = ([], [])) ∧
    (∀ s : List Char, ¬ (['[', '['] <+: s ∧ [']', ']'] <:+ s) → parseWikiLink s = ([], [])) ∧
    parseWikiLink ("[[[[|x]]".toList) = ("[[".toList, "x".toList) := by
  refine ⟨by decide, ?_, ?_, by decide⟩
  · intro s h
    unfold parseWikiLink
    split
    · rename_i rest
      dsimp only
      split
      · rename_i afterPipe heq
        exfalso
        apply h
        have hmem : '|' ∈ rest.dropWhile (fun c => !(c == '|' || c == ']')) := by
          rw [heq]; exact List.mem_cons_self _ _
        have := (List.dropWhile_sublist (l := rest) (fun c => !(c == '|' || c == ']'))).mem hmem
        exact List.mem_cons_of_mem _ (List.mem_cons_of_mem _ this)
      · rfl
    · rfl
  · intro s h
    unfold parseWikiLink
    split
    · rename_i rest
      dsimp only
      split
      · rename_i afterPipe heq
        split
        · rename_i hAfter
          exfalso
          apply h
          refine ⟨⟨rest, rfl⟩, ?_⟩
          have h1 := List.takeWhile_append_dropWhile (fun c => !(c == '|' || c == ']')) rest
          have h2 := List.takeWhile_append_dropWhile (fun c => !(c == ']')) afterPipe
          have hap : afterPipe = afterPipe.takeWhile (fun c => !(c == ']')) ++ [']', ']'] := by
            rw [← hAfter]; exact h2.symm
          have hrest : rest = rest.takeWhile (fun c => !(c == '|' || c == ']'))
              ++ '|' :: (afterPipe.takeWhile (fun c => !(c == ']')) ++ [']', ']']) := by
            conv_lhs => rw [← h1]
            rw [heq, ← hap]
          have hsuf : [']', ']'] <:+ rest := by
            rw [hrest]
            exact ((List.suffix_append _ _).trans (List.suffix_cons _ _)).trans
              (List.suffix_append _ _)
          exact (hsuf.trans (List.suffix_cons _ _)).trans (List.suffix_cons _ _)
        · rfl
      · rfl
    · rfl

/-- Claim C6: for either trigger, when the extracted alias already equals
the resolved replacement of the matched rule, `processAlias` (the shared
alias-processing path of both detectors) schedules no mutation. -/
theorem processAlias_idempotence (mappings : List PrefixMapping) (link : WikiLink)
    (aliasInfo : AliasInfo) (replacement : List Char)
    (hA : extractAlias mappings link.text link.lFrom = some aliasInfo)
    (hR : resolveEmoji mappings aliasInfo.aliasText = some replacement)
    (hEq : aliasInfo.aliasText = replacement) :
    processAlias mappings link = none := by
  unfold processAlias
  rw [hA]
  dsimp only
  rw [hR]
  dsimp only
  by_cases hnil : replacement = []
  · rw [if_pos hnil]
  · rw [if_neg hnil, if_pos hEq]

/-- Witness for claim C6: a link with alias `@Foo` against a rule whose
emoji is also `@Foo` schedules no mutation. -/
theorem processAlias_idempotence_witness :
    processAlias [c6Rule] c6Link = none :=
  processAlias_idempotence [c6Rule] c6Link
    { aliasText := "@Foo".toList, iFrom := 4, prefixLength := 1 }
    ("@Foo".toList) (by decide) (by decide) (by decide)

/-- Claim C7: the resolved rule set contains at most one rule per distinct
prefix value — the output keys of the merge are pairwise distinct. -/
theorem combine_at_most_one_rule_per_pfx (values : List (List PrefixMapping)) :
    (keysOf (combine values)).Nodup := by
  rw [combine_eq_foldl_flatten]
  exact foldl_mapSet_nodup values.flatten [] (by simp [keysOf])

/-- Claim C8: whenever a rule matches, the annotation `decorate` constructs
carries the template's attributes overlaid with
`data-sld-type ↦ rule.linkType`: the classification key holds the matched
rule's `linkType` (winning over any pre-existing entry of the same name)
and every other key keeps the template's value. -/
theorem decorate_classification_attrs (builder : List Annotation) (settings : List PrefixMapping)
    (spec : MarkSpec) (aliasText : List Char) (startFrom endTo : Nat) (setting : PrefixMapping)
    (hfind : settings.find? (matchesAlias aliasText) = some setting) :
    decorate builder settings spec aliasText startFrom endTo =
      builder ++ [{ aFrom := startFrom, aTo := endTo,
                    attributes := decorationAttrs spec setting }] ∧
    attrLookup (decorationAttrs spec setting) "data-sld-type" = some setting.linkType ∧
    (∀ k : String, k ≠ "data-sld-type" →
      attrLookup (decorationAttrs spec setting) k = attrLookup (spec.attributes.getD []) k) := by
  refine ⟨?_, attrLookup_objSet_self _ _ _, fun k hk => attrLookup_objSet_other _ _ _ _ hk⟩
  rw [decorate_eq_find, hfind]

/-- Witness for claim C8: with a template already carrying a
`data-sld-type` entry, the built annotation's classification entry is the
rule's `linkType` and the other entry is preserved. -/
theorem decorate_classification_attrs_witness :
    decorate [] [c8Rule] c8Spec ("@Foo".toList) 3 9 =
      [{ aFrom := 3, aTo := 9,
         attributes := [("data-sld-type", "person"), ("class", "sld")] }] :=
  ((decorate_classification_attrs [] [c8Rule] c8Spec ("@Foo".toList) 3 9 c8Rule
    (by decide)).1).trans (by decide)

/-- Claim C9: an update with an unchanged document, an unchanged viewport
and an identical rule-set reference does not rebuild the decoration set —
the plugin's exposed decorations stay exactly those computed before. -/
theorem pluginUpdate_no_rebuild (decorations : List Annotation) (update : ViewUpdate)
    (hDoc : update.docChanged = false) (hViewport : update.viewportChanged = false)
    (hRef : update.startState.settingsRef = update.state.settingsRef) :
    pluginUpdate decorations update = decorations := by
  unfold pluginUpdate
  rw [hDoc, hViewport]
  simp [hRef]

/-- Witness for claim C9: a no-change update over a fixed state keeps the
empty decoration set. -/
theorem pluginUpdate_no_rebuild_witness :
    pluginUpdate [] { docChanged := false, viewportChanged := false,
                      startState := c9State, state := c9State } = [] :=
  pluginUpdate_no_rebuild [] _ rfl rfl rfl

/-- Claim C10: the caret-exit detector's enclosing-link bounds test is
inclusive at both ends — with collapsed carets, a previous caret inside a
wiki-link, and a new caret exactly at the link's start offset or at its end
offset (just after `]]`), no alias processing is triggered. -/
theorem handleCaretExit_inclusive_bounds (mappings : List PrefixMapping) (doc : List Char)
    (prevPos nextPos : Nat) (link : WikiLink)
    (hEnc : findEnclosingWikilink doc prevPos = some link)
    (hEdge : nextPos = link.lFrom ∨ nextPos = link.lTo) :
    handleCaretExit mappings doc ⟨prevPos, prevPos⟩ ⟨nextPos, nextPos⟩ = none := by
  obtain ⟨hb1, hb2⟩ := findEnclosingWikilink_bounds doc prevPos link hEnc
  unfold handleCaretExit
  rw [if_neg (by simp)]
  dsimp only
  by_cases hmove : prevPos = nextPos
  · rw [if_pos hmove]
  · rw [if_neg hmove, hEnc]
    dsimp only
    rw [if_pos (by rcases hEdge with h | h <;> omega)]

/-- Witness for claim C10: in `"[[a|b]]"` with the previous caret at
offset 2 (inside the link spanning `[0, 7)`) and the new caret at offset 7
(right after `]]`), no alias processing is triggered. -/
theorem handleCaretExit_inclusive_bounds_witness :
    handleCaretExit [] c10Doc ⟨2, 2⟩ ⟨7, 7⟩ = none :=
  handleCaretExit_inclusive_bounds [] c10Doc 2 7
    { lFrom := 0, lTo := 7, text := "[[a|b]]".toList } (by decide) (Or.inr (by decide))

end SLD
